import Mathlib

/-!
Shallow embedding of src/VigenereDecipher.py.

Python strings are modeled as lists of Unicode code points (List Nat):
the source manipulates characters exclusively through ord/chr arithmetic,
so ord and chr become the identity.  Python dicts (which preserve key
insertion order) are modeled as association lists in insertion order, and
collections.Counter as an association list built by a fold that increments
the first matching entry or appends a fresh key at the end.  Python ints
are Nat (they are nonnegative everywhere in this program), except inside
decrypt_vigenere where the subtraction can go negative before the mod 26,
so there Int with emod models the Python sign-following modulo.
Counter.most_common(k) is the first k elements of a stable sort by count
descending, modeled with List.insertionSort (stable) over the relation
countGE.  Fallible code (ZeroDivisionError on an empty key in
decrypt_vigenere) returns Option.
-/

/-- Test for an uppercase letter code, the Python comparison
    A <= c <= Z on a one-character string. -/
def isUpper (c : Nat) : Prop := 65 ≤ c ∧ c ≤ 90

instance (c : Nat) : Decidable (isUpper c) :=
  inferInstanceAs (Decidable (65 ≤ c ∧ c ≤ 90))

/-- Python dict.get(key, d) on an insertion-ordered association list. -/
def dictGetD : List (Nat × Nat) → Nat → Nat → Nat
  | [], _, d => d
  | (k, v) :: t, key, d => if k = key then v else dictGetD t key d

/-- One step of collections.Counter construction: increment the entry of
    key c, or append (c, 1) if c is a fresh key. -/
def bump : List (Nat × Nat) → Nat → List (Nat × Nat)
  | [], c => [(c, 1)]
  | (k, v) :: t, c => if k = c then (k, v + 1) :: t else (k, v) :: bump t c

/-- Model of collections.Counter(l): counts in first-occurrence order. -/
def counter (l : List Nat) : List (Nat × Nat) := l.foldl bump []

/-- Comparison used by Counter.most_common: sort by count (second
    component) descending. -/
def countGE (a b : Nat × Nat) : Prop := b.2 ≤ a.2

instance : DecidableRel countGE := fun a b =>
  inferInstanceAs (Decidable (b.2 ≤ a.2))

instance : IsTotal (Nat × Nat) countGE := ⟨fun a b => le_total b.2 a.2⟩

instance : IsTrans (Nat × Nat) countGE :=
  ⟨fun _ _ _ h1 h2 => le_trans h2 h1⟩

/-- Model of Counter.most_common(k): the first k pairs of a stable sort
    by count descending (Python documents most_common as equivalent to
    sorted(items, key=count, reverse=True)[:k], which is stable, and
    insertionSort over the total preorder countGE is stable too). -/
def most_common (k : Nat) (l : List (Nat × Nat)) : List (Nat × Nat) :=
  (l.insertionSort countGE).take k

/-- Step of the defaultdict(list) build in extract_ngram_positions:
    append position i to the entry of the given ngram, or append a fresh
    entry at the end. -/
def addPos : List (List Nat × List Nat) → List Nat → Nat → List (List Nat × List Nat)
  | [], key, i => [(key, [i])]
  | (k, ps) :: t, key, i =>
    if k = key then (k, ps ++ [i]) :: t else (k, ps) :: addPos t key i

/-- Embedding of extract_ngram_positions(text, n, threshold).  The Python
    loop runs i over range(len(text) - n + 1); with Python ints a negative
    bound gives the empty range, which Nat truncation of
    text.length + 1 - n reproduces exactly. -/
def extract_ngram_positions (text : List Nat) (n threshold : Nat) :
    List (List Nat × List Nat) :=
  let positions := (List.range (text.length + 1 - n)).foldl
    (fun acc i => addPos acc ((text.drop i).take n) i) []
  positions.filter (fun p => threshold ≤ p.2.length)

/-- All pairwise distances pos[j] - pos[i] for i < j, generated in the
    order of the two nested Python loops. -/
def pair_distances : List Nat → List Nat
  | [] => []
  | p :: ps => (ps.map (fun q => q - p)) ++ pair_distances ps

/-- Embedding of compute_pairwise_distances.  The Python function writes
    into a defaultdict(list) only when a pair exists, so an ngram with a
    single position never becomes a key; the filter reproduces that. -/
def compute_pairwise_distances (positions : List (List Nat × List Nat)) :
    List (List Nat × List Nat) :=
  (positions.map (fun p => (p.1, pair_distances p.2))).filter
    (fun p => !p.2.isEmpty)

/-- Embedding of get_divisors(n): a set built over i in range(2, isqrt(n)+1)
    (modeled as List.range' 2 (isqrt n - 1), the same elements), adding i
    and n / i whenever i divides n, then adding n itself, returned sorted
    ascending. -/
def get_divisors (n : Nat) : List Nat :=
  let limit := Nat.sqrt n
  let divs : Finset Nat := (List.range' 2 (limit - 1)).foldl
    (fun s i => if n % i = 0 then insert (n / i) (insert i s) else s) ∅
  (insert n divs).sort (· ≤ ·)

/-- Embedding of kasiski_test(text, n, top_k, threshold), prints dropped. -/
def kasiski_test (text : List Nat) (n topK threshold : Nat) : List (Nat × Nat) :=
  let positions := extract_ngram_positions text n threshold
  let distances := compute_pairwise_distances positions
  let list_a := distances.foldl
    (fun acc p =>
      let factor_list := p.2.foldl (fun fl d => fl ++ get_divisors d) []
      let top_divisors := most_common topK (counter factor_list)
      acc ++ top_divisors.map Prod.fst)
    []
  most_common topK (counter list_a)

/-- Python dict assignment d[key] = v: overwrite in place, else append. -/
def dictSet : List (Nat × Nat) → Nat → Nat → List (Nat × Nat)
  | [], key, v => [(key, v)]
  | (k, w) :: t, key, v =>
    if k = key then (k, v) :: t else (k, w) :: dictSet t key v

/-- Embedding of list_to_dict(pairs): dict(pairs), last value wins for a
    duplicated key, insertion order preserved. -/
def list_to_dict (pairs : List (Nat × Nat)) : List (Nat × Nat) :=
  pairs.foldl (fun d p => dictSet d p.1 p.2) []

/-- Python result[key] = result.get(key, 0) + freq. -/
def bumpBy : List (Nat × Nat) → Nat → Nat → List (Nat × Nat)
  | [], key, v => [(key, v)]
  | (k, w) :: t, key, v =>
    if k = key then (k, w + v) :: t else (k, w) :: bumpBy t key v

/-- Embedding of sum_dicts(dicts): pointwise sum over the union of keys,
    keys in first-encounter order. -/
def sum_dicts (dicts : List (List (Nat × Nat))) : List (Nat × Nat) :=
  dicts.foldl (fun res d => d.foldl (fun r p => bumpBy r p.1 p.2) res) []

/-- Embedding of index_of_coincidence(text).  The Python float division is
    modeled as exact rational division; numerator and denominator are
    integers computed exactly in the source. -/
def index_of_coincidence (text : List Nat) : Rat :=
  let N := text.length
  if N ≤ 1 then 0
  else
    let numerator : Nat := ((counter text).map (fun p => p.2 * (p.2 - 1))).sum
    let denom : Nat := N * (N - 1)
    (numerator : Rat) / (denom : Rat)

/-- Python slice text[i::k] for a step k ≥ 1: drop i, then take the head
    and skip k - 1 elements, repeatedly.  (Python raises on step 0; every
    theorem below that touches slicing assumes 1 ≤ k.) -/
def takeEvery (k : Nat) : List Nat → List Nat
  | [] => []
  | c :: cs => c :: takeEvery k (cs.drop (k - 1))
termination_by l => l.length
decreasing_by simp only [List.length_drop, List.length_cons]; omega

/-- Embedding of group(text, key_length): the list of the key_length
    slices text[i::key_length] for i in range(key_length). -/
def group (text : List Nat) (key_length : Nat) : List (List Nat) :=
  (List.range key_length).map (fun i => takeEvery key_length (text.drop i))

/-- Embedding of average_ic_for_key_length(text, key_length). -/
def average_ic_for_key_length (text : List Nat) (key_length : Nat) : Rat :=
  let ics := (group text key_length).map index_of_coincidence
  ics.sum / (key_length : Rat)

/-- Embedding of the freq_pt table: letter codes (A = 65 ... Z = 90) paired
    with the expected percentage frequencies, in source order. -/
def freq_pt : List (Nat × Rat) :=
  [(65, 14.7154), (66, 0.9926), (67, 3.8775), (68, 4.7958), (69, 12.7879),
   (70, 0.9868), (71, 1.1435), (72, 1.4840), (73, 6.1426), (74, 0.2787),
   (75, 0.0044), (76, 3.3069), (77, 4.8531), (78, 4.7498), (79, 10.5498),
   (80, 2.6743), (81, 1.2897), (82, 6.3127), (83, 7.5612), (84, 4.2199),
   (85, 4.7630), (86, 1.6736), (87, 0.0011), (88, 0.2845), (89, 0.0686),
   (90, 0.4824)]

/-- Embedding of chi_squared(obs_counts, total_len, shift).  The Python
    guard (E_perc or 1) yields 1 exactly when E_perc == 0.  Division is
    exact rational division as for the IC. -/
def chi_squared (obs_counts : List (Nat × Nat)) (total_len : Nat)
    (shift : Nat) : Rat :=
  freq_pt.foldl
    (fun acc p =>
      let shifted_letter := (p.1 - 65 + shift) % 26 + 65
      let observed := dictGetD obs_counts shifted_letter 0
      let O : Rat := (observed : Rat) / (total_len : Rat) * 100
      acc + (O - p.2) ^ 2 / (if p.2 = 0 then 1 else p.2))
    0

/-- Embedding of the loop body of decrypt_vigenere, with the running key
    index ki explicit.  Python evaluates key[ki % len(key)], which raises
    ZeroDivisionError when the key is empty and an alphabetic character is
    reached; that failure is the none case.  The subtraction before % 26
    can be negative, so it is computed in Int, whose emod agrees with the
    Python sign-following modulo for the positive modulus 26. -/
def decryptAux (key : List Nat) : Nat → List Nat → Option (List Nat)
  | _, [] => some []
  | ki, c :: cs =>
    if isUpper c then
      if key.length = 0 then none
      else
        let shift : Int := (key.getD (ki % key.length) 0 : Int) - 65
        let dec : Nat := (((c : Int) - 65 - shift) % 26 + 65).toNat
        (decryptAux key (ki + 1) cs).map (fun r => dec :: r)
    else
      (decryptAux key ki cs).map (fun r => c :: r)

/-- Embedding of decrypt_vigenere(text, key). -/
def decrypt_vigenere (text key : List Nat) : Option (List Nat) :=
  decryptAux key 0 text

/-- The five (n-gram size, min occurrences) configurations of the main
    script. -/
def mainTests : List (Nat × Nat) := [(3, 6), (4, 5), (5, 3), (6, 2), (7, 2)]

/-- The candidate key lengths the main script computes: each configuration
    run through kasiski_test with top = 3, converted to a dict, the dicts
    summed, Counter(sums).most_common(3) taken, and lengths ≤ 2 dropped. -/
def candidate_key_lengths (text : List Nat) : List Nat :=
  let list_dicts := mainTests.map
    (fun p => list_to_dict (kasiski_test text p.1 3 p.2))
  let sums := sum_dicts list_dicts
  ((most_common 3 sums).map Prod.fst).filter (fun length => 2 < length)

/-- The key-length selection loop of the main script: greatest starts at
    (0, 0) and is replaced whenever a candidate has a strictly greater
    average IC; the selected key length is greatest[0]. -/
def select_key_length (text : List Nat) : Nat :=
  let cands := candidate_key_lengths text
  (cands.foldl
    (fun greatest k =>
      let ic_avg := average_ic_for_key_length text k
      if greatest.2 < ic_avg then (k, ic_avg) else greatest)
    ((0 : Nat), (0 : Rat))).1

/-- The per-column key-recovery loop of the main script.  Python starts
    from best_score = float('inf'), modeled as none, which every first
    score replaces. -/
def recover_key (text : List Nat) (keyLen : Nat) : List Nat :=
  (List.range keyLen).map
    (fun i =>
      let group_i := takeEvery keyLen (text.drop i)
      let counts := counter group_i
      let best := (List.range 26).foldl
        (fun b k =>
          let score := chi_squared counts group_i.length k
          match b.2 with
          | none => (k, some score)
          | some bs => if score < bs then (k, some score) else b)
        ((0 : Nat), (none : Option Rat))
      best.1 + 65)

/-- The tail of the main script after loading: select the key length,
    recover the key, decrypt the first 500 characters. -/
def run_pipeline (text : List Nat) : Option (List Nat) :=
  let keyLen := select_key_length text
  let estimated_key := recover_key text keyLen
  decrypt_vigenere (text.take 500) estimated_key

/-! Helper lemmas about the Counter model. -/

/-- Key list of an association list. -/
def dKeys (d : List (Nat × Nat)) : List Nat := d.map Prod.fst

theorem dictGetD_bump (acc : List (Nat × Nat)) (c x : Nat) :
    dictGetD (bump acc c) x 0 =
      dictGetD acc x 0 + if c = x then 1 else 0 := by
  induction acc with
  | nil =>
    by_cases h : c = x
    · simp [bump, dictGetD, h]
    · simp [bump, dictGetD, h]
  | cons p t ih =>
    obtain ⟨k, v⟩ := p
    simp only [bump]
    by_cases hk : k = c
    · rw [if_pos hk]
      simp only [dictGetD]
      by_cases hx : k = x
      · rw [if_pos hx, if_pos hx, if_pos (hk.symm.trans hx)]
      · rw [if_neg hx, if_neg hx, if_neg (fun h => hx (hk.trans h)),
          Nat.add_zero]
    · rw [if_neg hk]
      simp only [dictGetD]
      by_cases hx : k = x
      · rw [if_pos hx, if_pos hx,
          if_neg (fun h => hk (hx.trans h.symm)), Nat.add_zero]
      · rw [if_neg hx, if_neg hx]
        exact ih

theorem dictGetD_foldl_bump (l : List Nat) (acc : List (Nat × Nat)) (x : Nat) :
    dictGetD (l.foldl bump acc) x 0 = dictGetD acc x 0 + l.count x := by
  induction l generalizing acc with
  | nil => simp
  | cons c t ih =>
    simp only [List.foldl_cons, ih, dictGetD_bump, List.count_cons]
    by_cases h : c = x
    · simp [h]
      omega
    · simp [h]

theorem counter_getD (l : List Nat) (x : Nat) :
    dictGetD (counter l) x 0 = l.count x := by
  simpa [counter, dictGetD] using dictGetD_foldl_bump l [] x

theorem dKeys_bump (acc : List (Nat × Nat)) (c : Nat) :
    dKeys (bump acc c) =
      if c ∈ dKeys acc then dKeys acc else dKeys acc ++ [c] := by
  induction acc with
  | nil => simp [bump, dKeys]
  | cons p t ih =>
    obtain ⟨k, v⟩ := p
    simp only [bump]
    by_cases hk : k = c
    · rw [if_pos hk]
      have hmem : c ∈ dKeys ((k, v) :: t) := by
        simp [dKeys, ← hk]
      rw [if_pos hmem]
      simp [dKeys]
    · rw [if_neg hk]
      have hck : ¬ c = k := fun h => hk h.symm
      simp only [dKeys, List.map_cons] at ih ⊢
      rw [ih]
      by_cases hc : c ∈ List.map Prod.fst t
      · rw [if_pos hc, if_pos (List.mem_cons_of_mem k hc)]
      · rw [if_neg hc,
          if_neg (by simp [hck, hc] : ¬ c ∈ k :: List.map Prod.fst t),
          List.cons_append]

theorem mem_dKeys_foldl_bump (l : List Nat) (acc : List (Nat × Nat)) (x : Nat) :
    x ∈ dKeys (l.foldl bump acc) ↔ x ∈ dKeys acc ∨ x ∈ l := by
  induction l generalizing acc with
  | nil => simp
  | cons c t ih =>
    simp only [List.foldl_cons, ih, dKeys_bump]
    by_cases hc : c ∈ dKeys acc
    · simp only [hc, if_true, List.mem_cons]
      constructor
      · intro h; rcases h with h | h
        · exact Or.inl h
        · exact Or.inr (Or.inr h)
      · intro h; rcases h with h | h | h
        · exact Or.inl h
        · exact Or.inl (h ▸ hc)
        · exact Or.inr h
    · simp only [hc, if_false, List.mem_append, List.mem_singleton,
        List.mem_cons]
      tauto

theorem nodup_dKeys_foldl_bump (l : List Nat) (acc : List (Nat × Nat))
    (h : (dKeys acc).Nodup) : (dKeys (l.foldl bump acc)).Nodup := by
  induction l generalizing acc with
  | nil => simpa
  | cons c t ih =>
    simp only [List.foldl_cons]
    apply ih
    rw [dKeys_bump]
    by_cases hc : c ∈ dKeys acc
    · simpa [hc]
    · simp only [hc, if_false]
      simp [List.nodup_append, h, hc]

theorem counter_nodup_keys (l : List Nat) : (dKeys (counter l)).Nodup :=
  nodup_dKeys_foldl_bump l [] (by simp [dKeys])

theorem mem_dKeys_counter (l : List Nat) (x : Nat) :
    x ∈ dKeys (counter l) ↔ x ∈ l := by
  simpa [counter, dKeys] using mem_dKeys_foldl_bump l [] x

theorem dictGetD_of_mem (d : List (Nat × Nat)) :
    (dKeys d).Nodup → ∀ p : Nat × Nat, p ∈ d → dictGetD d p.1 0 = p.2 := by
  induction d with
  | nil =>
    intro _ p hp
    cases hp
  | cons q t ih =>
    intro h p hp
    obtain ⟨k, v⟩ := q
    have hnd : k ∉ dKeys t ∧ (dKeys t).Nodup := by
      simpa [dKeys] using h
    rcases List.mem_cons.mp hp with hp1 | hp1
    · subst hp1
      simp [dictGetD]
    · have hk : ¬ k = p.1 := by
        intro hkp
        exact hnd.1 (hkp ▸ List.mem_map_of_mem Prod.fst hp1)
      simp only [dictGetD, hk, if_false]
      exact ih hnd.2 p hp1

theorem counter_mem (l : List Nat) (p : Nat × Nat) (hp : p ∈ counter l) :
    p.2 = l.count p.1 ∧ 0 < p.2 ∧ p.1 ∈ l := by
  have hkey : p.1 ∈ l := by
    rw [← mem_dKeys_counter l p.1]
    exact List.mem_map_of_mem Prod.fst hp
  have hval : p.2 = l.count p.1 := by
    rw [← counter_getD l p.1]
    exact (dictGetD_of_mem (counter l) (counter_nodup_keys l) p hp).symm
  refine ⟨hval, ?_, hkey⟩
  rw [hval]
  exact List.count_pos_iff.mpr hkey

theorem map_snd_bump (acc : List (Nat × Nat)) (c : Nat) :
    ((bump acc c).map Prod.snd).sum = ((acc.map Prod.snd).sum) + 1 := by
  induction acc with
  | nil => simp [bump]
  | cons p t ih =>
    obtain ⟨k, v⟩ := p
    simp only [bump]
    by_cases hk : k = c
    · rw [if_pos hk]
      simp only [List.map_cons, List.sum_cons]
      omega
    · rw [if_neg hk]
      simp only [List.map_cons, List.sum_cons, ih]
      omega

theorem counter_values_sum (l : List Nat) :
    ((counter l).map Prod.snd).sum = l.length := by
  have key : ∀ acc : List (Nat × Nat),
      ((l.foldl bump acc).map Prod.snd).sum =
        (acc.map Prod.snd).sum + l.length := by
    induction l with
    | nil => intro acc; simp
    | cons c t ih =>
      intro acc
      simp only [List.foldl_cons, ih, map_snd_bump, List.length_cons]
      omega
  simpa [counter] using key []

theorem counter_map_sum (l : List Nat) (f : Nat → Nat) :
    ((counter l).map (fun p => f p.2)).sum =
      ∑ c ∈ l.toFinset, f (l.count c) := by
  have h1 : (counter l).map (fun p => f p.2) =
      (dKeys (counter l)).map (fun c => f (l.count c)) := by
    rw [dKeys, List.map_map]
    apply List.map_congr_left
    intro p hp
    have := (counter_mem l p hp).1
    simp [Function.comp, this]
  rw [h1, ← List.sum_toFinset _ (counter_nodup_keys l)]
  apply Finset.sum_congr
  · apply Finset.ext
    intro a
    simp [List.mem_toFinset, mem_dKeys_counter]
  · intro x _
    rfl

theorem foldl_bump_replicate (n : Nat) (c : Nat) :
    ∀ m : Nat, (List.replicate n c).foldl bump [(c, m)] = [(c, m + n)] := by
  induction n with
  | zero => intro m; simp
  | succ k ih =>
    intro m
    have hb : bump [(c, m)] c = [(c, m + 1)] := by simp [bump]
    simp only [List.replicate_succ, List.foldl_cons, hb]
    rw [ih (m + 1)]
    have harith : m + 1 + k = m + (k + 1) := by omega
    rw [harith]

theorem counter_replicate (n : Nat) (c : Nat) (h : 1 ≤ n) :
    counter (List.replicate n c) = [(c, n)] := by
  rcases Nat.exists_eq_add_of_le h with ⟨k, hk⟩
  subst hk
  rw [Nat.add_comm 1 k]
  have hb : bump [] c = [(c, 1)] := by simp [bump]
  simp only [counter, List.replicate_succ, List.foldl_cons, hb]
  rw [foldl_bump_replicate k c 1]
  have harith : 1 + k = k + 1 := by omega
  rw [harith]

theorem sum_mul_pred_le (l : List Nat) (h : ∀ v ∈ l, 1 ≤ v) :
    (l.map (fun v => v * (v - 1))).sum ≤ l.sum * (l.sum - 1) := by
  induction l with
  | nil => simp
  | cons a t ih =>
    have ha : 1 ≤ a := h a (List.mem_cons_self a t)
    have iht := ih (fun v hv => h v (List.mem_cons_of_mem a hv))
    simp only [List.map_cons, List.sum_cons]
    rcases Nat.exists_eq_add_of_le ha with ⟨s, hs⟩
    subst hs
    rcases Nat.eq_zero_or_pos t.sum with hT | hT
    · rw [hT] at iht ⊢
      simp only [Nat.zero_mul, Nat.le_zero] at iht
      simp [iht]
    · rcases Nat.exists_eq_add_of_le hT with ⟨u, hu⟩
      rw [hu] at iht ⊢
      have h1 : 1 + s - 1 = s := by omega
      have h2 : 1 + s + (1 + u) - 1 = 1 + s + u := by omega
      have h3 : 1 + u - 1 = u := by omega
      rw [h1, h2]
      rw [h3] at iht
      nlinarith [iht]

/-- C6: index_of_coincidence(text) equals Σ fᵢ(fᵢ−1) / (N(N−1)) over the
    letter frequencies fᵢ of text with N = len(text) whenever N ≥ 2, and
    equals 0 whenever N ≤ 1 (the function is total: no division by zero and
    no exception); in particular on 100 copies of a single letter it
    equals 1. -/
theorem index_of_coincidence_spec (text : List Nat) :
    (text.length ≤ 1 → index_of_coincidence text = 0) ∧
    (2 ≤ text.length →
      index_of_coincidence text =
        ((∑ c ∈ text.toFinset, text.count c * (text.count c - 1) : Nat) : Rat) /
          ((text.length * (text.length - 1) : Nat) : Rat)) ∧
    index_of_coincidence (List.replicate 100 65) = 1 := by
  refine ⟨?_, ?_, ?_⟩
  · intro h
    simp [index_of_coincidence, h]
  · intro h
    have h1 : ¬ text.length ≤ 1 := by omega
    simp only [index_of_coincidence, h1, if_false]
    rw [counter_map_sum text (fun v => v * (v - 1))]
  · have hc := counter_replicate 100 65 (by norm_num)
    simp only [index_of_coincidence, List.length_replicate, hc]
    norm_num

/-- C9: the index of coincidence always lies in the closed interval
    [0, 1]: the numerator Σ fᵢ(fᵢ−1) is nonnegative and never exceeds
    N(N−1). -/
theorem index_of_coincidence_bounds (text : List Nat) :
    0 ≤ index_of_coincidence text ∧ index_of_coincidence text ≤ 1 := by
  by_cases h : text.length ≤ 1
  · simp [index_of_coincidence, h]
  · have hN : 2 ≤ text.length := by omega
    simp only [index_of_coincidence, h, if_false]
    have hvals : ∀ v ∈ (counter text).map Prod.snd, 1 ≤ v := by
      intro v hv
      rcases List.mem_map.mp hv with ⟨p, hp, hpv⟩
      have := (counter_mem text p hp).2.1
      omega
    have hmap : (counter text).map (fun p => p.2 * (p.2 - 1)) =
        ((counter text).map Prod.snd).map (fun v => v * (v - 1)) := by
      rw [List.map_map]
      rfl
    have hbound : ((counter text).map (fun p => p.2 * (p.2 - 1))).sum ≤
        text.length * (text.length - 1) := by
      rw [hmap]
      have hle := sum_mul_pred_le ((counter text).map Prod.snd) hvals
      rwa [counter_values_sum] at hle
    have hdenom : (0 : Rat) < ((text.length * (text.length - 1) : Nat) : Rat) := by
      have hpos : 0 < text.length * (text.length - 1) := by
        apply Nat.mul_pos <;> omega
      exact_mod_cast hpos
    constructor
    · apply div_nonneg
      · exact Nat.cast_nonneg _
      · exact le_of_lt hdenom
    · rw [div_le_one hdenom]
      exact_mod_cast hbound

/-- Witness for C6: the N ≤ 1 branch at a one-letter text, the formula
    branch at a two-letter text, and the repeated-letter value. -/
theorem index_of_coincidence_spec_witness :
    index_of_coincidence [65] = 0 ∧
    index_of_coincidence [65, 66] =
      ((∑ c ∈ ([65, 66] : List Nat).toFinset,
          ([65, 66] : List Nat).count c *
            (([65, 66] : List Nat).count c - 1) : Nat) : Rat) /
        ((([65, 66] : List Nat).length *
            (([65, 66] : List Nat).length - 1) : Nat) : Rat) ∧
    index_of_coincidence (List.replicate 100 65) = 1 :=
  ⟨(index_of_coincidence_spec [65]).1 (by decide),
   (index_of_coincidence_spec [65, 66]).2.1 (by decide),
   (index_of_coincidence_spec []).2.2⟩

/-! Lemmas about decrypt_vigenere. -/

/-- Number of alphabetic characters in a list: the number of key positions
    that an initial segment of the input consumes. -/
def countUpper (l : List Nat) : Nat := l.countP (fun c => decide (isUpper c))

theorem countUpper_nil : countUpper [] = 0 := rfl

theorem countUpper_cons (c : Nat) (l : List Nat) :
    countUpper (c :: l) =
      countUpper l + (if isUpper c then 1 else 0) := by
  simp only [countUpper, List.countP_cons]
  by_cases h : isUpper c
  · simp [h]
  · simp [h]

theorem decryptAux_spec (key : List Nat) (hk : key ≠ []) :
    ∀ (text : List Nat) (ki : Nat),
      ∃ out, decryptAux key ki text = some out ∧
        out.length = text.length ∧
        ∀ j, j < text.length →
          out.getD j 0 =
            (if isUpper (text.getD j 0) then
              ((((text.getD j 0 : Int) - 65 -
                ((key.getD ((ki + countUpper (text.take j)) % key.length) 0 : Int)
                  - 65)) % 26 + 65)).toNat
            else text.getD j 0) := by
  intro text
  induction text with
  | nil =>
    intro ki
    exact ⟨[], rfl, rfl, fun j hj => absurd hj (by simp)⟩
  | cons c cs ih =>
    intro ki
    have hklen : ¬ key.length = 0 := fun h => hk (List.length_eq_zero.mp h)
    by_cases hc : isUpper c
    · obtain ⟨out', h1, h2, h3⟩ := ih (ki + 1)
      refine ⟨(((c : Int) - 65 -
          ((key.getD (ki % key.length) 0 : Int) - 65)) % 26 + 65).toNat :: out',
          ?_, ?_, ?_⟩
      · simp only [decryptAux, if_pos hc, if_neg hklen, h1, Option.map_some']
      · simp [h2]
      · intro j hj
        cases j with
        | zero =>
          simp [List.getD_cons_zero, hc, countUpper_nil]
        | succ j' =>
          have hj' : j' < cs.length := by
            simpa using hj
          have := h3 j' hj'
          simp only [List.getD_cons_succ, List.take_succ_cons,
            countUpper_cons, if_pos hc] at *
          rw [this]
          have harith : ki + 1 + countUpper (cs.take j') =
              ki + (countUpper (cs.take j') + 1) := by omega
          rw [harith]
    · obtain ⟨out', h1, h2, h3⟩ := ih ki
      refine ⟨c :: out', ?_, ?_, ?_⟩
      · simp only [decryptAux, if_neg hc, h1, Option.map_some']
      · simp [h2]
      · intro j hj
        cases j with
        | zero =>
          simp [List.getD_cons_zero, hc]
        | succ j' =>
          have hj' : j' < cs.length := by
            simpa using hj
          have := h3 j' hj'
          simp only [List.getD_cons_succ, List.take_succ_cons,
            countUpper_cons, if_neg hc, Nat.add_zero] at *
          rw [this]

/-- C10: for every text and every non-empty key, decrypt_vigenere succeeds
    and its output has exactly the same length as the input text. -/
theorem decrypt_vigenere_length (text key : List Nat) (hk : key ≠ []) :
    ∃ out, decrypt_vigenere text key = some out ∧
      out.length = text.length := by
  obtain ⟨out, h1, h2, _⟩ := decryptAux_spec key hk text 0
  exact ⟨out, h1, h2⟩

/-- Witness for C10 on a concrete text (letter, punctuation, letter) and a
    concrete two-letter key. -/
theorem decrypt_vigenere_length_witness :
    ∃ out, decrypt_vigenere [65, 33, 90] [66, 67] = some out ∧
      out.length = ([65, 33, 90] : List Nat).length :=
  decrypt_vigenere_length [65, 33, 90] [66, 67] (by decide)

/-- C4: with a non-empty key of letters A–Z, decrypt_vigenere advances its
    key cursor only on alphabetic input characters: the character at
    position j, when alphabetic, becomes (c − shift) mod 26 for the key
    character at cursor countUpper(input before j) mod len(key), and otherwise
    passes through unchanged, consuming no key position. -/
theorem decrypt_vigenere_cursor (text key : List Nat) (hk : key ≠ [])
    (_hkAZ : ∀ c ∈ key, isUpper c) :
    ∃ out, decrypt_vigenere text key = some out ∧
      out.length = text.length ∧
      ∀ j, j < text.length →
        (isUpper (text.getD j 0) →
          out.getD j 0 =
            (((text.getD j 0 : Int) - 65 -
              ((key.getD (countUpper (text.take j) % key.length) 0 : Int)
                - 65)) % 26 + 65).toNat) ∧
        (¬ isUpper (text.getD j 0) → out.getD j 0 = text.getD j 0) := by
  obtain ⟨out, h1, h2, h3⟩ := decryptAux_spec key hk text 0
  refine ⟨out, h1, h2, ?_⟩
  intro j hj
  have hgd := h3 j hj
  rw [Nat.zero_add] at hgd
  constructor
  · intro hu
    rw [hgd, if_pos hu]
  · intro hu
    rw [hgd, if_neg hu]

/-- Witness for C4 on the concrete text (A, exclamation mark, B) and the
    concrete one-letter key C. -/
theorem decrypt_vigenere_cursor_witness :
    ∃ out, decrypt_vigenere [65, 33, 66] [67] = some out ∧
      out.length = ([65, 33, 66] : List Nat).length ∧
      ∀ j, j < ([65, 33, 66] : List Nat).length →
        (isUpper (([65, 33, 66] : List Nat).getD j 0) →
          out.getD j 0 =
            (((([65, 33, 66] : List Nat).getD j 0 : Int) - 65 -
              ((([67] : List Nat).getD
                (countUpper (([65, 33, 66] : List Nat).take j) %
                  ([67] : List Nat).length) 0 : Int) - 65)) % 26 + 65).toNat) ∧
        (¬ isUpper (([65, 33, 66] : List Nat).getD j 0) →
          out.getD j 0 = ([65, 33, 66] : List Nat).getD j 0) :=
  decrypt_vigenere_cursor [65, 33, 66] [67] (by decide) (by decide)

/-- Modelled from the spec: the matching forward-shift Vigenère encryptor
    of the round-trip law (the cipher itself is not part of the source):
    each letter is shifted forward by the current key letter,
    (letter + keyLetter) mod 26, with the key cursor advancing circularly
    on alphabetic characters. -/
def encryptAux (key : List Nat) : Nat → List Nat → List Nat
  | _, [] => []
  | ki, c :: cs =>
    if isUpper c then
      ((c - 65 + (key.getD (ki % key.length) 0 - 65)) % 26 + 65) ::
        encryptAux key (ki + 1) cs
    else
      c :: encryptAux key ki cs

/-- Modelled from the spec: the forward-shift encryptor started at key
    cursor 0. -/
def encrypt_vigenere (text key : List Nat) : List Nat := encryptAux key 0 text

theorem decryptAux_encryptAux (key : List Nat) (hk : key ≠ [])
    (hkAZ : ∀ c ∈ key, isUpper c) :
    ∀ text : List Nat, (∀ c ∈ text, isUpper c) →
      ∀ ki, decryptAux key ki (encryptAux key ki text) = some text := by
  intro text
  induction text with
  | nil =>
    intro _ ki
    rfl
  | cons c cs ih =>
    intro htext ki
    have hc : isUpper c := htext c (List.mem_cons_self c cs)
    have hcs : ∀ x ∈ cs, isUpper x :=
      fun x hx => htext x (List.mem_cons_of_mem c hx)
    have hklen : ¬ key.length = 0 := fun h => hk (List.length_eq_zero.mp h)
    have hkpos : 0 < key.length := Nat.pos_of_ne_zero hklen
    have hlt : ki % key.length < key.length := Nat.mod_lt ki hkpos
    have hkcU : isUpper (key.getD (ki % key.length) 0) := by
      have hmem : key.getD (ki % key.length) 0 ∈ key := by
        rw [List.getD_eq_getElem?_getD, List.getElem?_eq_getElem hlt]
        simp only [Option.getD_some]
        exact List.getElem_mem hlt
      exact hkAZ _ hmem
    have heU : isUpper
        ((c - 65 + (key.getD (ki % key.length) 0 - 65)) % 26 + 65) := by
      constructor
      · omega
      · have hm : (c - 65 + (key.getD (ki % key.length) 0 - 65)) % 26 < 26 :=
          Nat.mod_lt _ (by norm_num)
        omega
    simp only [encryptAux, if_pos hc]
    simp only [decryptAux, if_pos heU, if_neg hklen]
    rw [ih hcs (ki + 1)]
    simp only [Option.map_some', Option.some.injEq, List.cons.injEq, and_true]
    obtain ⟨hc1, hc2⟩ := hc
    obtain ⟨hk1, hk2⟩ := hkcU
    omega

/-- C2: round-trip law: for every non-empty key of letters A–Z and every
    all-alphabetic text, decrypting the forward-shift encryption with the
    same key gives back the text. -/
theorem decrypt_encrypt_roundtrip (text key : List Nat) (hk : key ≠ [])
    (hkAZ : ∀ c ∈ key, isUpper c) (htext : ∀ c ∈ text, isUpper c) :
    decrypt_vigenere (encrypt_vigenere text key) key = some text :=
  decryptAux_encryptAux key hk hkAZ text htext 0

/-- Witness for C2 on the concrete plaintext HELLO and key KEY. -/
theorem decrypt_encrypt_roundtrip_witness :
    decrypt_vigenere (encrypt_vigenere [72, 69, 76, 76, 79] [75, 69, 89])
      [75, 69, 89] = some [72, 69, 76, 76, 79] :=
  decrypt_encrypt_roundtrip [72, 69, 76, 76, 79] [75, 69, 89]
    (by decide) (by decide) (by decide)

/-! Lemmas about get_divisors. -/

theorem mem_divisors_foldl (n : Nat) (l : List Nat) (s : Finset Nat)
    (x : Nat) :
    (x ∈ l.foldl
        (fun s i => if n % i = 0 then insert (n / i) (insert i s) else s)
        s) ↔
      x ∈ s ∨ ∃ i ∈ l, n % i = 0 ∧ (x = i ∨ x = n / i) := by
  induction l generalizing s with
  | nil => simp
  | cons a t ih =>
    simp only [List.foldl_cons]
    rw [ih]
    by_cases h : n % a = 0
    · rw [if_pos h]
      simp only [Finset.mem_insert, List.mem_cons]
      constructor
      · rintro ((hx | hx | hx) | ⟨i, hi, hni, hxi⟩)
        · exact Or.inr ⟨a, Or.inl rfl, h, Or.inr hx⟩
        · exact Or.inr ⟨a, Or.inl rfl, h, Or.inl hx⟩
        · exact Or.inl hx
        · exact Or.inr ⟨i, Or.inr hi, hni, hxi⟩
      · rintro (hx | ⟨i, hi | hi, hni, hxi⟩)
        · exact Or.inl (Or.inr (Or.inr hx))
        · subst hi
          rcases hxi with hxi | hxi
          · exact Or.inl (Or.inr (Or.inl hxi))
          · exact Or.inl (Or.inl hxi)
        · exact Or.inr ⟨i, hi, hni, hxi⟩
    · rw [if_neg h]
      simp only [List.mem_cons]
      constructor
      · rintro (hx | ⟨i, hi, hni, hxi⟩)
        · exact Or.inl hx
        · exact Or.inr ⟨i, Or.inr hi, hni, hxi⟩
      · rintro (hx | ⟨i, hi | hi, hni, hxi⟩)
        · exact Or.inl hx
        · exact absurd (hi ▸ hni) h
        · exact Or.inr ⟨i, hi, hni, hxi⟩

theorem mem_get_divisors (n : Nat) (hn : 2 ≤ n) (x : Nat) :
    x ∈ get_divisors n ↔ 2 ≤ x ∧ x ∣ n := by
  have hsq1 : 1 ≤ Nat.sqrt n := Nat.le_sqrt.mpr (by omega)
  simp only [get_divisors]
  rw [Finset.mem_sort, Finset.mem_insert, mem_divisors_foldl]
  constructor
  · rintro (hx | hx | ⟨i, hi, hni, hxi⟩)
    · rw [hx]
      exact ⟨hn, dvd_refl n⟩
    · exact absurd hx (Finset.not_mem_empty x)
    · have hi2 := List.mem_range'_1.mp hi
      have hidvd : i ∣ n := Nat.dvd_of_mod_eq_zero hni
      have hisqrt : i ≤ Nat.sqrt n := by omega
      rcases hxi with rfl | rfl
      · exact ⟨hi2.1, hidvd⟩
      · refine ⟨?_, Nat.div_dvd_of_dvd hidvd⟩
        have hii : i * i ≤ n := Nat.le_sqrt.mp hisqrt
        have hile : i ≤ n / i :=
          (Nat.le_div_iff_mul_le (by omega)).mpr hii
        omega
  · rintro ⟨hx2, hxd⟩
    by_cases hxn : x = n
    · exact Or.inl hxn
    · right
      right
      have hxlt : x < n := lt_of_le_of_ne (Nat.le_of_dvd (by omega) hxd) hxn
      by_cases hxs : x ≤ Nat.sqrt n
      · exact ⟨x, List.mem_range'_1.mpr (by omega),
          Nat.mod_eq_zero_of_dvd hxd, Or.inl rfl⟩
      · obtain ⟨e, he⟩ := hxd
        have hepos : 0 < e := by
          rcases Nat.eq_zero_or_pos e with h0 | h0
          · subst h0
            omega
          · exact h0
        have he2 : 2 ≤ e := by
          by_contra hco
          push_neg at hco
          have he1 : e = 1 := by omega
          rw [he1, Nat.mul_one] at he
          exact hxn he.symm
        have hesqrt : e ≤ Nat.sqrt n := by
          by_contra hco
          push_neg at hco
          have hxgt : Nat.sqrt n < x := by omega
          have h1 : (Nat.sqrt n + 1) * (Nat.sqrt n + 1) ≤ x * e :=
            Nat.mul_le_mul (by omega) (by omega)
          have h2 : n < (Nat.sqrt n + 1) * (Nat.sqrt n + 1) :=
            Nat.lt_succ_sqrt n
          omega
        have hne : n / e = x :=
          Nat.div_eq_of_eq_mul_right hepos (by rw [he, Nat.mul_comm])
        refine ⟨e, List.mem_range'_1.mpr (by omega), ?_, Or.inr hne.symm⟩
        exact Nat.mod_eq_zero_of_dvd ⟨x, by rw [he, Nat.mul_comm]⟩

theorem get_divisors_zero : get_divisors 0 = [0] := by
  simp only [get_divisors, Nat.sqrt_zero, Nat.zero_sub, List.range'_zero,
    List.foldl_nil]
  exact Finset.sort_singleton _ 0

/-- C3 counterexample: get_divisors(0) returns [0], not the empty sequence
    the claim asserts (the range(2, isqrt(0)+1) loop contributes nothing,
    but divs.add(n) still inserts 0 itself). -/
theorem get_divisors_zero_not_empty :
    get_divisors 0 = [0] ∧ get_divisors 0 ≠ [] :=
  ⟨get_divisors_zero, by simp [get_divisors_zero]⟩

/-- C3 (amended): for every n ≥ 2, get_divisors(n) is a strictly ascending
    sequence that is non-empty, contains n, contains no value above n or
    below 2, and contains exactly the integers ≥ 2 that evenly divide n;
    and get_divisors(0) returns [0] (not the empty sequence: the loop
    contributes nothing but n itself, 0, is still added). -/
theorem get_divisors_spec (n : Nat) :
    (2 ≤ n →
      get_divisors n ≠ [] ∧
      n ∈ get_divisors n ∧
      List.Sorted (· < ·) (get_divisors n) ∧
      (∀ x ∈ get_divisors n, 2 ≤ x ∧ x ≤ n ∧ x ∣ n) ∧
      (∀ d, 2 ≤ d → d ∣ n → d ∈ get_divisors n)) ∧
    get_divisors 0 = [0] := by
  constructor
  · intro hn
    have hself : n ∈ get_divisors n :=
      (mem_get_divisors n hn n).mpr ⟨hn, dvd_refl n⟩
    refine ⟨List.ne_nil_of_mem hself, hself, ?_, ?_, ?_⟩
    · simp only [get_divisors]
      exact Finset.sort_sorted_lt _
    · intro x hx
      obtain ⟨hx2, hxd⟩ := (mem_get_divisors n hn x).mp hx
      exact ⟨hx2, Nat.le_of_dvd (by omega) hxd, hxd⟩
    · intro d hd2 hdd
      exact (mem_get_divisors n hn d).mpr ⟨hd2, hdd⟩
  · exact get_divisors_zero

/-- Witness for C3 at n = 6 (membership of 6 itself and of the proper
    divisor 3) and at n = 0. -/
theorem get_divisors_spec_witness :
    6 ∈ get_divisors 6 ∧ 3 ∈ get_divisors 6 ∧ get_divisors 0 = [0] :=
  ⟨((get_divisors_spec 6).1 (by norm_num)).2.1,
   ((get_divisors_spec 6).1 (by norm_num)).2.2.2.2 3 (by norm_num)
     (by norm_num),
   (get_divisors_spec 0).2⟩

/-- C7: for every non-empty column, its Counter letter-count map, and every
    shift s in 0..25, chi_squared returns the sum over the 26 reference
    letters (L, E) of (O − E)² / E', where O is the observed percentage in
    the column of the letter (L + s) mod 26 (count / total × 100, 0 when
    absent) and E' = E except that a zero E is replaced by 1. -/
theorem chi_squared_spec (col : List Nat) (s : Nat) (_h : 1 ≤ col.length)
    (_hs : s ≤ 25) :
    chi_squared (counter col) col.length s =
      (freq_pt.map (fun LE =>
        ((col.count ((LE.1 - 65 + s) % 26 + 65) : Rat) / (col.length : Rat)
            * 100 - LE.2) ^ 2 /
          (if LE.2 = 0 then 1 else LE.2))).sum := by
  simp only [chi_squared, freq_pt, List.foldl_cons, List.foldl_nil,
    List.map_cons, List.map_nil, List.sum_cons, List.sum_nil, counter_getD]
  ring

/-- Witness for C7 at the one-letter column A with shift 0. -/
theorem chi_squared_spec_witness :
    chi_squared (counter [65]) ([65] : List Nat).length 0 =
      (freq_pt.map (fun LE =>
        ((([65] : List Nat).count ((LE.1 - 65 + 0) % 26 + 65) : Rat) /
            (([65] : List Nat).length : Rat) * 100 - LE.2) ^ 2 /
          (if LE.2 = 0 then 1 else LE.2))).sum :=
  chi_squared_spec [65] 0 (by decide) (by decide)

/-! Lemmas about group and slicing. -/

theorem takeEvery_getElem (k : Nat) (hk : 1 ≤ k) :
    ∀ (m : Nat) (l : List Nat), (takeEvery k l)[m]? = l[m * k]? := by
  intro m
  induction m with
  | zero =>
    intro l
    cases l with
    | nil => simp [takeEvery]
    | cons c cs => simp [takeEvery]
  | succ m' ih =>
    intro l
    cases l with
    | nil => simp [takeEvery]
    | cons c cs =>
      have harith : (m' + 1) * k = (k - 1 + m' * k) + 1 := by
        rw [Nat.succ_mul]
        omega
      rw [harith]
      simp only [takeEvery, List.getElem?_cons_succ]
      rw [ih (cs.drop (k - 1)), List.getElem?_drop]

theorem group_length (text : List Nat) (k : Nat) :
    (group text k).length = k := by
  simp [group]

theorem group_getD (text : List Nat) (k i : Nat) (hi : i < k) :
    (group text k).getD i [] = takeEvery k (text.drop i) := by
  simp only [group, List.getD_eq_getElem?_getD, List.getElem?_map,
    List.getElem?_range hi, Option.map_some', Option.getD_some]

theorem column_getElem (text : List Nat) (k : Nat) (hk : 1 ≤ k) (i : Nat)
    (hi : i < k) (m : Nat) :
    ((group text k).getD i [])[m]? = text[i + m * k]? := by
  rw [group_getD text k i hi, takeEvery_getElem k hk m (text.drop i),
    List.getElem?_drop]

/-- Modelled from the spec: re-interleaving a column list in column order,
    output position j taken from column j mod k (at offset j div k inside
    that column), for j below the requested length n. -/
def reinterleave (cols : List (List Nat)) (n : Nat) : List Nat :=
  (List.range n).map
    (fun j => (cols.getD (j % cols.length) []).getD (j / cols.length) 0)

/-- C8: for every text and every key length k ≥ 1, column i of
    group(text, k) consists precisely of the characters of text at
    positions i, i + k, i + 2k, ... (the positions ≡ i mod k, in order),
    and re-interleaving the k columns in column order reconstructs the
    text exactly. -/
theorem group_spec (text : List Nat) (k : Nat) (hk : 1 ≤ k) :
    (group text k).length = k ∧
    (∀ i, i < k → ∀ m,
      ((group text k).getD i [])[m]? = text[i + m * k]?) ∧
    reinterleave (group text k) text.length = text := by
  refine ⟨group_length text k,
    fun i hi m => column_getElem text k hk i hi m, ?_⟩
  apply List.ext_getElem?
  intro j
  by_cases hj : j < text.length
  · simp only [reinterleave, List.getElem?_map, List.getElem?_range hj,
      Option.map_some', group_length]
    have hjk : j % k < k := Nat.mod_lt j (by omega)
    have hcol := column_getElem text k hk (j % k) hjk (j / k)
    rw [Nat.mod_add_div' j k] at hcol
    rw [List.getD_eq_getElem?_getD, hcol, List.getElem?_eq_getElem hj,
      Option.getD_some]
  · have h1 : ((List.range text.length).map
        (fun j => ((group text k).getD (j % (group text k).length) []).getD
          (j / (group text k).length) 0)).length = text.length := by
      simp
    rw [reinterleave, List.getElem?_eq_none (by rw [h1]; omega),
      List.getElem?_eq_none (by omega)]

/-- Witness for C8 on the concrete five-element text with k = 2. -/
theorem group_spec_witness :
    (group [10, 11, 12, 13, 14] 2).length = 2 ∧
    (∀ i, i < 2 → ∀ m,
      ((group [10, 11, 12, 13, 14] 2).getD i [])[m]? =
        ([10, 11, 12, 13, 14] : List Nat)[i + m * 2]?) ∧
    reinterleave (group [10, 11, 12, 13, 14] 2)
      ([10, 11, 12, 13, 14] : List Nat).length = [10, 11, 12, 13, 14] :=
  group_spec [10, 11, 12, 13, 14] 2 (by decide)

/-! Lemmas about kasiski_test. -/

theorem foldl_append_eq_flatMap {α β : Type} (f : α → List β) (l : List α) :
    ∀ acc : List β,
      l.foldl (fun a x => a ++ f x) acc = acc ++ l.flatMap f := by
  induction l with
  | nil =>
    intro acc
    simp
  | cons a t ih =>
    intro acc
    simp only [List.foldl_cons, ih, List.flatMap_cons, List.append_assoc]

/-- The capped global vote list of kasiski_test: for each retained ngram,
    the lengths of its topK most frequent distance divisors, one vote each,
    concatenated in ngram order (the list_a of the source). -/
def capped_votes (text : List Nat) (n topK threshold : Nat) : List Nat :=
  (compute_pairwise_distances
      (extract_ngram_positions text n threshold)).flatMap
    (fun p =>
      (most_common topK (counter (p.2.flatMap get_divisors))).map Prod.fst)

/-- The claim's description of kasiski_test: tally the capped votes
    globally and return the top topK (length, voteCount) pairs by
    descending count, ties in first-encountered order. -/
def kasiski_spec (text : List Nat) (n topK threshold : Nat) :
    List (Nat × Nat) :=
  most_common topK (counter (capped_votes text n topK threshold))

theorem kasiski_test_eq (text : List Nat) (n topK threshold : Nat) :
    kasiski_test text n topK threshold =
      kasiski_spec text n topK threshold := by
  simp only [kasiski_test, kasiski_spec, capped_votes,
    foldl_append_eq_flatMap, List.nil_append]

theorem most_common_subset (k : Nat) (l : List (Nat × Nat)) (p : Nat × Nat)
    (hp : p ∈ most_common k l) : p ∈ l :=
  ((List.perm_insertionSort countGE l).mem_iff).mp (List.mem_of_mem_take hp)

theorem most_common_sorted (k : Nat) (l : List (Nat × Nat)) :
    List.Sorted countGE (most_common k l) :=
  List.Pairwise.sublist (List.take_sublist k _)
    (List.sorted_insertionSort countGE l)

theorem orderedInsert_filter_count (a : Nat × Nat) (v : Nat) :
    ∀ s : List (Nat × Nat),
      (List.orderedInsert countGE a s).filter (fun p => p.2 == v) =
        if a.2 = v then a :: s.filter (fun p => p.2 == v)
        else s.filter (fun p => p.2 == v) := by
  intro s
  induction s with
  | nil =>
    by_cases hv : a.2 = v
    · simp [List.orderedInsert, List.filter_cons, hv]
    · simp [List.orderedInsert, List.filter_cons, hv]
  | cons y ys ih =>
    by_cases hr : countGE a y
    · rw [List.orderedInsert, if_pos hr]
      by_cases hv : a.2 = v
      · simp [List.filter_cons, hv]
      · simp [List.filter_cons, hv]
    · rw [List.orderedInsert, if_neg hr]
      have hy : ¬ y.2 = v ∨ ¬ a.2 = v := by
        by_cases hv : a.2 = v
        · left
          intro hyv
          exact hr (le_of_eq (hyv.trans hv.symm))
        · right
          exact hv
      by_cases hv : a.2 = v
      · have hyv : ¬ y.2 = v := hy.resolve_right (fun h => h hv)
        simp only [List.filter_cons, ih, if_pos hv]
        simp [hyv]
      · simp only [List.filter_cons, ih, if_neg hv]

theorem insertionSort_filter_count (v : Nat) (l : List (Nat × Nat)) :
    (l.insertionSort countGE).filter (fun p => p.2 == v) =
      l.filter (fun p => p.2 == v) := by
  induction l with
  | nil => rfl
  | cons a t ih =>
    have hstep : List.insertionSort countGE (a :: t) =
        List.orderedInsert countGE a (List.insertionSort countGE t) := rfl
    rw [hstep, orderedInsert_filter_count a v _, ih]
    by_cases hv : a.2 = v
    · simp [List.filter_cons, hv]
    · simp [List.filter_cons, hv]

/-- C5: kasiski_test caps votes per ngram before global aggregation: for
    each retained ngram only the topK most frequent divisors of its
    distances contribute one vote each (capped_votes), those votes are
    tallied globally, and the result is the global top topK
    (length, voteCount) pairs in descending vote order — at most topK
    pairs, each count being the number of capped votes for that length —
    with ties broken by first-encountered order (the stable sort leaves
    pairs with equal counts in the tally's first-encounter order). -/
theorem kasiski_test_spec (text : List Nat) (n topK threshold : Nat)
    (_htop : 1 ≤ topK) :
    kasiski_test text n topK threshold = kasiski_spec text n topK threshold ∧
    (kasiski_test text n topK threshold).length ≤ topK ∧
    List.Sorted countGE (kasiski_test text n topK threshold) ∧
    (∀ p ∈ kasiski_test text n topK threshold,
      p.2 = (capped_votes text n topK threshold).count p.1) ∧
    (∀ v, ((counter (capped_votes text n topK threshold)).insertionSort
          countGE).filter (fun p => p.2 == v) =
        (counter (capped_votes text n topK threshold)).filter
          (fun p => p.2 == v)) := by
  refine ⟨kasiski_test_eq text n topK threshold, ?_, ?_, ?_, ?_⟩
  · rw [kasiski_test_eq]
    simp only [kasiski_spec, most_common]
    exact List.length_take_le _ _
  · rw [kasiski_test_eq]
    exact most_common_sorted _ _
  · intro p hp
    rw [kasiski_test_eq] at hp
    have hmem := most_common_subset _ _ p hp
    exact (counter_mem _ p hmem).1
  · intro v
    exact insertionSort_filter_count v _

/-- Witness for C5 at the empty text with topK = 1. -/
theorem kasiski_test_spec_witness :
    kasiski_test [] 3 1 2 = kasiski_spec [] 3 1 2 ∧
    (kasiski_test [] 3 1 2).length ≤ 1 ∧
    List.Sorted countGE (kasiski_test [] 3 1 2) ∧
    (∀ p ∈ kasiski_test [] 3 1 2,
      p.2 = (capped_votes [] 3 1 2).count p.1) ∧
    (∀ v, ((counter (capped_votes [] 3 1 2)).insertionSort countGE).filter
        (fun p => p.2 == v) =
      (counter (capped_votes [] 3 1 2)).filter (fun p => p.2 == v)) :=
  kasiski_test_spec [] 3 1 2 (by decide)

/-- C1, evaluated at the failing input: on the two-letter ciphertext AB
    (too short for any of the tested n-gram sizes) the Kasiski stage plus
    the length filter yields zero candidate key lengths, yet the selection
    stage silently produces key length 0 — its greatest-IC accumulator
    keeps the initial (0, 0) — instead of signaling any failure; the
    pipeline then proceeds to key recovery, which returns the empty key,
    and to decryption, which dies with ZeroDivisionError (modeled none)
    rather than a NoCandidateKeyLengthError report. -/
theorem no_candidate_silent_default :
    candidate_key_lengths [65, 66] = [] ∧
    select_key_length [65, 66] = 0 ∧
    recover_key [65, 66] (select_key_length [65, 66]) = [] ∧
    run_pipeline [65, 66] = none := by
  decide
